import Mathlib

/-!
Verification development for the sorting-visualization core of the algorust
repository.  The component logic (the `SortingAlgorithms` page: its message
handler, value regeneration and view computation) is translated from
`src/pages/sorting_algorithms.rs`.  The `sorting_algorithms` crate itself
(the command model, the three instrumented sorting algorithms, `SortResult`
and the replay function `run_sort_steps`) is not part of the provided
sources, so those definitions are modelled from the specification, faithful
to its description of the command vocabulary, the step grouping of each
algorithm and the replay semantics.
-/

set_option linter.unusedVariables false
set_option linter.unnecessarySimpa false

/-- Modelled from the spec: the command vocabulary of the `sorting_algorithms`
crate (spec section 3).  `Compare i j` is an inert observation of positions
`i` and `j`, `Swap i j` exchanges the values at `i` and `j`, `Write i v`
overwrites position `i` with value `v`.  Indices are zero-based positions
into the original input length. -/
inductive SortCommand (T : Type) where
  | Compare (i j : Nat)
  | Swap (i j : Nat)
  | Write (i : Nat) (v : T)
deriving DecidableEq

/-- Modelled from the spec: the `SortResult` bundle of the
`sorting_algorithms` crate (spec section 3, Run Result): the final output,
an optional duration in milliseconds, and the step log, where each step is
a list of commands. -/
structure SortResult (T : Type) where
  output : List T
  duration : Option Nat
  steps : List (List (SortCommand T))

/-- Modelled from the spec: the `SortResult::new` constructor used by the
component code in `src/pages/sorting_algorithms.rs`. -/
def SortResult.new {T : Type} (output : List T) (duration : Option Nat)
    (steps : List (List (SortCommand T))) : SortResult T :=
  { output := output, duration := duration, steps := steps }

/-- Modelled from the spec: the effect of a single command on the current
sequence (spec section 4.4).  `Compare` is a no-op on state; `Swap` and
`Write` mutate.  A mutating command whose index is out of range is a hard
failure (spec section 7, `IndexOutOfRange`), modelled as `none`. -/
def applyCommand {T : Type} (l : List T) : SortCommand T → Option (List T)
  | SortCommand.Compare _ _ => some l
  | SortCommand.Swap i j =>
      match l[i]?, l[j]? with
      | some a, some b => some ((l.set i b).set j a)
      | _, _ => none
  | SortCommand.Write i v =>
      if i < l.length then some (l.set i v) else none

/-- Modelled from the spec: apply every command of one step, in order. -/
def runCmds {T : Type} (l : List T) : List (SortCommand T) → Option (List T)
  | [] => some l
  | c :: cs =>
      match applyCommand l c with
      | some l2 => runCmds l2 cs
      | none => none

/-- Modelled from the spec: the `run_sort_steps` function of the
`sorting_algorithms` crate, as invoked by the component view: apply, in
order, every command of every given step to the sequence. -/
def run_sort_steps {T : Type} (l : List T) :
    List (List (SortCommand T)) → Option (List T)
  | [] => some l
  | s :: ss =>
      match runCmds l s with
      | some l2 => run_sort_steps l2 ss
      | none => none

/-- Modelled from the spec: the Replay Engine (spec section 4.4):
`replay input steps k` applies the first `k` steps of the log to a copy of
`input` and returns the resulting sequence. -/
def replay {T : Type} (input : List T) (steps : List (List (SortCommand T)))
    (k : Nat) : Option (List T) :=
  run_sort_steps input (steps.take k)

namespace bubble_sort

/-- Modelled from the spec: the tail of one adjacent-pair scan of the
exchange-based strategy (spec section 4.2).  `cur` is the element currently
being carried rightward and `i` its absolute index; the result is the
scanned list, the commands of this pass in order (one `Compare` per
adjacent pair, with a `Swap` immediately after each inverted pair), and
whether any swap happened. -/
def passGo {T : Type} [LinearOrder T] (i : Nat) (cur : T) :
    List T → List T × List (SortCommand T) × Bool
  | [] => ([cur], [], false)
  | b :: rest =>
      if cur ≤ b then
        let r := passGo (i + 1) b rest
        (cur :: r.1, SortCommand.Compare i (i + 1) :: r.2.1, r.2.2)
      else
        let r := passGo (i + 1) cur rest
        (b :: r.1,
          SortCommand.Compare i (i + 1) :: SortCommand.Swap i (i + 1) :: r.2.1,
          true)

/-- Modelled from the spec: one full adjacent-pair pass over the sequence. -/
def pass {T : Type} [LinearOrder T] :
    List T → List T × List (SortCommand T) × Bool
  | [] => ([], [], false)
  | x :: xs => passGo 0 x xs

/-- Number of inverted pairs of the list; the measure that bounds how many
passes the exchange-based strategy can perform before a pass does no swap. -/
def inversions {T : Type} [LinearOrder T] : List T → Nat
  | [] => 0
  | x :: xs => xs.countP (fun y => decide (y < x)) + inversions xs

/-- Modelled from the spec: repeat full passes until a pass performs no swap
(the early-termination rule of spec section 4.2); each pass is one step of
the log, and the final no-swap pass is still logged when it performed any
comparison.  The fuel argument bounds the recursion; `sort` supplies
`inversions l + 1`, which is always sufficient because every pass that
swaps strictly decreases `inversions`. -/
def loopF {T : Type} [LinearOrder T] :
    Nat → List T → List T × List (List (SortCommand T))
  | 0, l => (l, [])
  | fuel + 1, l =>
      let r := pass l
      if r.2.2 then
        let q := loopF fuel r.1
        (q.1, r.2.1 :: q.2)
      else
        (r.1, if r.2.1.isEmpty then [] else [r.2.1])

/-- Modelled from the spec: the exchange-based (bubble) strategy
`bubble_sort::sort` of the `sorting_algorithms` crate.  Timing is an
injected capability of the Run Aggregator (spec sections 4.3 and 9), so the
pure algorithm records no duration. -/
def sort {T : Type} [LinearOrder T] (l : List T) : SortResult T :=
  let r := loopF (inversions l + 1) l
  SortResult.new r.1 none r.2

end bubble_sort

namespace insertion_sort

/-- Modelled from the spec: walk the newly admitted element `x` leftward
into position among the previously admitted elements (spec section 4.2).
`racc` holds, in reversed order, the part of the sorted prefix that is
still to the left of `x`; `tail` holds the elements `x` has already passed.
Each probe emits the `Compare` of the adjacent pair and, when the pair is
inverted, the `Swap` that moves `x` one position leftward; command indices
are absolute. -/
def walk {T : Type} [LinearOrder T] (x : T) :
    List T → List T → List T × List (SortCommand T)
  | [], tail => (x :: tail, [])
  | a :: racc, tail =>
      if a ≤ x then
        ((a :: racc).reverse ++ x :: tail,
          [SortCommand.Compare racc.length (racc.length + 1)])
      else
        let w := walk x racc (a :: tail)
        (w.1,
          SortCommand.Compare racc.length (racc.length + 1) ::
            SortCommand.Swap racc.length (racc.length + 1) :: w.2)

/-- Modelled from the spec: admit the remaining elements one by one; `acc`
is the sorted prefix built so far.  Each admitted element that performed at
least one comparison contributes one step to the log. -/
def loop {T : Type} [LinearOrder T] :
    List T → List T → List T × List (List (SortCommand T))
  | acc, [] => (acc, [])
  | acc, x :: rest =>
      let w := walk x acc.reverse []
      let q := loop w.1 rest
      (q.1, if w.2.isEmpty then q.2 else w.2 :: q.2)

/-- Modelled from the spec: the insertion-based strategy
`insertion_sort::sort` of the `sorting_algorithms` crate. -/
def sort {T : Type} [LinearOrder T] (l : List T) : SortResult T :=
  let r := loop [] l
  SortResult.new r.1 none r.2

end insertion_sort

namespace merge_sort

/-- Modelled from the spec: merge two sorted runs into their final merged
positions (spec section 4.2).  `li` and `ri` are the original absolute
positions of the two current heads (the operands of each `Compare`), and
`d` is the absolute destination index of the next `Write`; every element
placed produces exactly one `Write`, and `Swap` is never used. -/
def mergeRuns {T : Type} [LinearOrder T] :
    Nat → Nat → Nat → List T → List T → List T × List (SortCommand T)
  | _, _, _, [], [] => ([], [])
  | li, ri, d, [], y :: ys =>
      let m := mergeRuns li (ri + 1) (d + 1) [] ys
      (y :: m.1, SortCommand.Write d y :: m.2)
  | li, ri, d, x :: xs, [] =>
      let m := mergeRuns (li + 1) ri (d + 1) xs []
      (x :: m.1, SortCommand.Write d x :: m.2)
  | li, ri, d, x :: xs, y :: ys =>
      if x ≤ y then
        let m := mergeRuns (li + 1) ri (d + 1) xs (y :: ys)
        (x :: m.1, SortCommand.Compare li ri :: SortCommand.Write d x :: m.2)
      else
        let m := mergeRuns li (ri + 1) (d + 1) (x :: xs) ys
        (y :: m.1, SortCommand.Compare li ri :: SortCommand.Write d y :: m.2)
termination_by _ _ _ xs ys => xs.length + ys.length

/-- Modelled from the spec: sort the segment of the array that starts at
absolute offset `off` and currently holds `l`: split in half, recursively
sort the left half, then the right half, then merge the two sorted halves
as one step (post-order, spec section 4.2). -/
def msortSeg {T : Type} [LinearOrder T] (off : Nat) (l : List T) :
    List T × List (List (SortCommand T)) :=
  if h : l.length ≤ 1 then (l, [])
  else
    let n := l.length / 2
    let L := msortSeg off (l.take n)
    let R := msortSeg (off + n) (l.drop n)
    let m := mergeRuns off (off + n) off L.1 R.1
    (m.1, L.2 ++ R.2 ++ [m.2])
termination_by l.length
decreasing_by
  · simp [List.length_take]; omega
  · simp [List.length_drop]; omega

/-- Modelled from the spec: the divide-and-merge strategy
`merge_sort::sort` of the `sorting_algorithms` crate. -/
def sort {T : Type} [LinearOrder T] (l : List T) : SortResult T :=
  let r := msortSeg 0 l
  SortResult.new r.1 none r.2

end merge_sort

/-- Translated from `src/pages/sorting_algorithms.rs`: a named algorithm
entry, a stable name string together with the sort function of the
algorithm. -/
structure SortingAlgorithm (T : Type) where
  name : String
  sort : List T → SortResult T

/-- Translated from `src/pages/sorting_algorithms.rs`: the fixed
`SORTING_ALGORITHMS` table of the three selectable algorithms. -/
def SORTING_ALGORITHMS (T : Type) [LinearOrder T] : List (SortingAlgorithm T) :=
  [{ name := "Bubble sort", sort := bubble_sort.sort },
   { name := "Insertion sort", sort := insertion_sort.sort },
   { name := "Merge sort", sort := merge_sort.sort }]

/-- Modelled from the spec: the Run Aggregator (spec sections 4.3 and 9).
Timing is an injected capability, so the measured wall-clock duration `dur`
is a parameter; output and step log come from the pure algorithm. -/
def run {T : Type} (a : SortingAlgorithm T) (input : List T)
    (dur : Option Nat) : SortResult T :=
  SortResult.new (a.sort input).output dur (a.sort input).steps

/-- Translated from `src/pages/sorting_algorithms.rs`: the opaque payload of
`Result<usize, ParseIntError>`; the component never inspects it. -/
inductive ParseIntError where
  | mk
deriving DecidableEq

/-- Translated from `src/pages/sorting_algorithms.rs`: `SortConfig`. -/
structure SortConfig where
  input_len : Nat
  sorting_algorithm : SortingAlgorithm Nat
  audio_enabled : Bool

/-- Translated from `src/pages/sorting_algorithms.rs`: the component
messages.  `UpdateConfig` carries a boolean that controls whether the
change causes a rerender. -/
inductive Msg where
  | UpdateInput (val : List Nat)
  | UpdateConfig (cfg : SortConfig) (rerender : Bool)
  | ChangeActiveStep (res : Except ParseIntError Nat)

/-- Translated from `src/pages/sorting_algorithms.rs`: the component
state. -/
structure SortingAlgorithms where
  input : List Nat
  output : SortResult Nat
  sort_config : SortConfig
  steps : List (List (SortCommand Nat))
  active_step_index : Nat

/-- Subtraction of one on a `usize` with release-mode wrap-around: the Rust
expression `n - 1` on an unsigned machine integer wraps to the maximal
value when `n = 0`. -/
def usizeSub1 (n : Nat) : Nat :=
  if n = 0 then 2 ^ 64 - 1 else n - 1

/-- Translated from `src/pages/sorting_algorithms.rs` (`update_values`):
regenerate the input, rerun the selected algorithm, store the new result
and step log, and clamp the active step cursor when it is out of range.
The random input generation (`knuth_shuffle(gen_u32_vec(input_len))`) is
performed by utility code that is not part of the provided sources, so the
freshly generated sequence is passed in as `fresh`. -/
def SortingAlgorithms.update_values (s : SortingAlgorithms)
    (fresh : List Nat) : SortingAlgorithms :=
  let input := fresh
  let out := s.sort_config.sorting_algorithm.sort input
  let s2 : SortingAlgorithms :=
    { s with
        input := input,
        output := SortResult.new out.output out.duration out.steps,
        steps := out.steps }
  if s2.active_step_index ≥ s2.steps.length then
    { s2 with active_step_index := usizeSub1 s2.steps.length }
  else
    s2

/-- Translated from `src/pages/sorting_algorithms.rs` (`update`): the
message handler.  It returns the new state and the rerender flag that the
Rust method returns.  `fresh` feeds `update_values` on the paths that call
it. -/
def SortingAlgorithms.update (s : SortingAlgorithms) (msg : Msg)
    (fresh : List Nat) : SortingAlgorithms × Bool :=
  match msg with
  | Msg.UpdateInput val =>
      let s1 := { s with input := val }
      (s1.update_values fresh, true)
  | Msg.UpdateConfig val rerender =>
      let s1 := { s with sort_config := val }
      (if rerender then s1.update_values fresh else s1, rerender)
  | Msg.ChangeActiveStep res =>
      match res with
      | Except.ok val => ({ s with active_step_index := val }, true)
      | Except.error _ => (s, false)

/-- Translated from `src/pages/sorting_algorithms.rs` (`view`), the data
computation only: the pair of the displayed input-graph values and the
displayed output-graph values.  The slice `steps[0..=active_step_index]`
requires the cursor to be in range (an out-of-range cursor panics, modelled
as `none`), and the selected step prefix is replayed on a clone of the
stored input, never on the stored input itself. -/
def SortingAlgorithms.view (s : SortingAlgorithms) :
    Option (List Nat × List Nat) :=
  if s.active_step_index < s.steps.length then
    match run_sort_steps s.input (s.steps.take (s.active_step_index + 1)) with
    | some out => some (s.input, out)
    | none => none
  else
    none

/-- Concrete component state used to exercise the cursor behavior of
`ChangeActiveStep`: a one-step log with the cursor at step 0. -/
def sampleCursorState : SortingAlgorithms :=
  { input := [1],
    output := SortResult.new [1] none [[SortCommand.Compare 0 0]],
    sort_config :=
      { input_len := 1,
        sorting_algorithm := { name := "Bubble sort", sort := bubble_sort.sort },
        audio_enabled := true },
    steps := [[SortCommand.Compare 0 0]],
    active_step_index := 0 }

/-- Concrete component state used to exercise the view computation: input
`[2, 1]` with a one-step log that swaps the two positions. -/
def sampleViewState : SortingAlgorithms :=
  { input := [2, 1],
    output := SortResult.new [1, 2] none
      [[SortCommand.Compare 0 1, SortCommand.Swap 0 1]],
    sort_config :=
      { input_len := 2,
        sorting_algorithm := { name := "Bubble sort", sort := bubble_sort.sort },
        audio_enabled := true },
    steps := [[SortCommand.Compare 0 1, SortCommand.Swap 0 1]],
    active_step_index := 0 }

/-- Concrete component state whose selected algorithm is the insertion-based
strategy, used to exercise the regeneration paths of the message handler. -/
def sampleInsertState : SortingAlgorithms :=
  { input := [2, 1],
    output := SortResult.new [1, 2] none
      [[SortCommand.Compare 0 1, SortCommand.Swap 0 1]],
    sort_config :=
      { input_len := 2,
        sorting_algorithm :=
          { name := "Insertion sort", sort := insertion_sort.sort },
        audio_enabled := true },
    steps := [[SortCommand.Compare 0 1, SortCommand.Swap 0 1]],
    active_step_index := 0 }

/-! Helper lemmas about list indexing at an append boundary, used to relate
the absolute command indices of the algorithms to the replay semantics. -/

theorem getElem?_append_len {T : Type} (P : List T) (a : T) (R : List T) :
    (P ++ a :: R)[P.length]? = some a := by
  induction P with
  | nil => simp
  | cons p P ih => simpa using ih

theorem set_append_len {T : Type} (P : List T) (a v : T) (R : List T) :
    (P ++ a :: R).set P.length v = P ++ v :: R := by
  induction P with
  | nil => rfl
  | cons p P ih => simp [ih]

theorem applyCommand_swap_adj {T : Type} (P : List T) (a b : T) (R : List T) :
    applyCommand (P ++ a :: b :: R)
      (SortCommand.Swap P.length (P.length + 1)) = some (P ++ b :: a :: R) := by
  have h1 : (P ++ a :: b :: R)[P.length]? = some a := getElem?_append_len P a (b :: R)
  have h2 : (P ++ a :: b :: R)[P.length + 1]? = some b := by
    have hx := getElem?_append_len (P ++ [a]) b R
    simpa using hx
  have h3 : (P ++ a :: b :: R).set P.length b = P ++ b :: b :: R :=
    set_append_len P a b (b :: R)
  have h4 : (P ++ b :: b :: R).set (P.length + 1) a = P ++ b :: a :: R := by
    have := set_append_len (P ++ [b]) b a R
    simpa using this
  simp [applyCommand, h1, h2, h3, h4]

theorem applyCommand_write_len {T : Type} (P : List T) (a v : T) (R : List T) :
    applyCommand (P ++ a :: R) (SortCommand.Write P.length v)
      = some (P ++ v :: R) := by
  have hlt : P.length < (P ++ a :: R).length := by
    simp
  simp [applyCommand, hlt, set_append_len]

theorem run_sort_steps_append {T : Type} (s t : List (List (SortCommand T)))
    (A : List T) :
    run_sort_steps A (s ++ t) =
      match run_sort_steps A s with
      | some B => run_sort_steps B t
      | none => none := by
  induction s generalizing A with
  | nil => rfl
  | cons c cs ih =>
      simp only [List.cons_append, run_sort_steps]
      cases runCmds A c with
      | some B => exact ih B
      | none => rfl

/-! Lemmas about the exchange-based (bubble) strategy. -/

namespace bubble_sort

theorem passGo_perm {T : Type} [LinearOrder T] :
    ∀ (xs : List T) (x : T) (i : Nat), (passGo i x xs).1.Perm (x :: xs)
  | [], x, i => by simp [passGo]
  | b :: rest, x, i => by
      by_cases h : x ≤ b
      · simpa [passGo, h] using ((passGo_perm rest b (i + 1)).cons x)
      · refine ?_
        have ih := passGo_perm rest x (i + 1)
        simpa [passGo, h] using (ih.cons b).trans (List.Perm.swap x b rest)

theorem passGo_eq_of_not_swap {T : Type} [LinearOrder T] :
    ∀ (xs : List T) (x : T) (i : Nat),
      (passGo i x xs).2.2 = false → (passGo i x xs).1 = x :: xs
  | [], x, i, _ => by simp [passGo]
  | b :: rest, x, i, hsw => by
      by_cases h : x ≤ b
      · have hsub : (passGo (i + 1) b rest).2.2 = false := by
          simpa [passGo, h] using hsw
        simp [passGo, h, passGo_eq_of_not_swap rest b (i + 1) hsub]
      · simp [passGo, h] at hsw

theorem passGo_sorted_of_not_swap {T : Type} [LinearOrder T] :
    ∀ (xs : List T) (x : T) (i : Nat),
      (passGo i x xs).2.2 = false → List.Sorted (· ≤ ·) (x :: xs)
  | [], x, i, _ => by simp
  | b :: rest, x, i, hsw => by
      by_cases h : x ≤ b
      · have hsub : (passGo (i + 1) b rest).2.2 = false := by
          simpa [passGo, h] using hsw
        have hs : List.Sorted (· ≤ ·) (b :: rest) :=
          passGo_sorted_of_not_swap rest b (i + 1) hsub
        refine List.sorted_cons.mpr ⟨?_, hs⟩
        intro c hc
        rcases List.mem_cons.mp hc with rfl | hc
        · exact h
        · exact le_trans h (List.rel_of_sorted_cons hs c hc)
      · simp [passGo, h] at hsw

theorem passGo_inv {T : Type} [LinearOrder T] :
    ∀ (xs : List T) (x : T) (i : Nat),
      inversions (passGo i x xs).1 +
          (if (passGo i x xs).2.2 then 1 else 0) ≤ inversions (x :: xs)
  | [], x, i => by simp [passGo, inversions]
  | b :: rest, x, i => by
      by_cases h : x ≤ b
      · have ih := passGo_inv rest b (i + 1)
        have hperm := passGo_perm rest b (i + 1)
        have hcnt : (passGo (i + 1) b rest).1.countP (fun y => decide (y < x))
            = (b :: rest).countP (fun y => decide (y < x)) :=
          hperm.countP_eq _
        simp only [passGo, h, if_true, inversions] at *
        omega
      · have hbx : b < x := lt_of_not_le h
        have hxb : ¬ (x < b) := not_lt_of_gt hbx
        have ih := passGo_inv rest x (i + 1)
        have e1 : (passGo i x (b :: rest)).1
            = b :: (passGo (i + 1) x rest).1 := by
          simp [passGo, h]
        have e2 : (passGo i x (b :: rest)).2.2 = true := by
          simp [passGo, h]
        rw [e1, e2, if_pos rfl]
        have hA : inversions (b :: (passGo (i + 1) x rest).1)
            = (passGo (i + 1) x rest).1.countP (fun y => decide (y < b))
              + inversions (passGo (i + 1) x rest).1 := rfl
        have hB : (passGo (i + 1) x rest).1.countP (fun y => decide (y < b))
            = rest.countP (fun y => decide (y < b)) := by
          rw [(passGo_perm rest x (i + 1)).countP_eq]
          simp [List.countP_cons, hxb]
        have hC : inversions (x :: b :: rest)
            = (b :: rest).countP (fun y => decide (y < x))
              + (rest.countP (fun y => decide (y < b)) + inversions rest) := rfl
        have hD : (b :: rest).countP (fun y => decide (y < x))
            = rest.countP (fun y => decide (y < x)) + 1 := by
          simp [List.countP_cons, hbx]
        have hE : inversions (x :: rest)
            = rest.countP (fun y => decide (y < x)) + inversions rest := rfl
        rw [hE] at ih
        rw [hA, hB, hC, hD]
        omega

theorem runCmds_passGo {T : Type} [LinearOrder T] :
    ∀ (xs : List T) (x : T) (P : List T),
      runCmds (P ++ x :: xs) (passGo P.length x xs).2.1
        = some (P ++ (passGo P.length x xs).1)
  | [], x, P => by simp [passGo, runCmds]
  | b :: rest, x, P => by
      by_cases h : x ≤ b
      · have ih := runCmds_passGo rest b (P ++ [x])
        simp only [List.append_assoc, List.singleton_append, List.length_append,
          List.length_cons, List.length_nil, Nat.zero_add] at ih
        simp [passGo, h, runCmds, applyCommand, ih]
      · have ih := runCmds_passGo rest x (P ++ [b])
        simp only [List.append_assoc, List.singleton_append, List.length_append,
          List.length_cons, List.length_nil, Nat.zero_add] at ih
        have hswap := applyCommand_swap_adj P x b rest
        have hcomp : applyCommand (P ++ x :: b :: rest)
            (SortCommand.Compare P.length (P.length + 1))
              = some (P ++ x :: b :: rest) := rfl
        simp [passGo, h, runCmds, hcomp, hswap, ih]

theorem pass_perm {T : Type} [LinearOrder T] (l : List T) :
    (pass l).1.Perm l := by
  cases l with
  | nil => simp [pass]
  | cons x xs => simpa [pass] using passGo_perm xs x 0

theorem pass_eq_of_not_swap {T : Type} [LinearOrder T] (l : List T)
    (h : (pass l).2.2 = false) : (pass l).1 = l := by
  cases l with
  | nil => simp [pass]
  | cons x xs =>
      simpa [pass] using passGo_eq_of_not_swap xs x 0 (by simpa [pass] using h)

theorem pass_sorted_of_not_swap {T : Type} [LinearOrder T] (l : List T)
    (h : (pass l).2.2 = false) : List.Sorted (· ≤ ·) l := by
  cases l with
  | nil => simp
  | cons x xs =>
      exact passGo_sorted_of_not_swap xs x 0 (by simpa [pass] using h)

theorem pass_inv {T : Type} [LinearOrder T] (l : List T) :
    inversions (pass l).1 + (if (pass l).2.2 then 1 else 0) ≤ inversions l := by
  cases l with
  | nil => simp [pass, inversions]
  | cons x xs => simpa [pass] using passGo_inv xs x 0

theorem runCmds_pass {T : Type} [LinearOrder T] (l : List T) :
    runCmds l (pass l).2.1 = some (pass l).1 := by
  cases l with
  | nil => simp [pass, runCmds]
  | cons x xs =>
      have h := runCmds_passGo xs x ([] : List T)
      simpa [pass] using h

theorem loopF_perm {T : Type} [LinearOrder T] :
    ∀ (fuel : Nat) (l : List T), (loopF fuel l).1.Perm l
  | 0, l => List.Perm.refl l
  | fuel + 1, l => by
      by_cases h : (pass l).2.2
      · have ih := loopF_perm fuel (pass l).1
        simpa [loopF, h] using ih.trans (pass_perm l)
      · simpa [loopF, h] using pass_perm l

theorem loopF_sorted {T : Type} [LinearOrder T] :
    ∀ (fuel : Nat) (l : List T), inversions l < fuel →
      List.Sorted (· ≤ ·) (loopF fuel l).1
  | 0, l, hf => absurd hf (by omega)
  | fuel + 1, l, hf => by
      by_cases h : (pass l).2.2
      · have hinv := pass_inv l
        rw [if_pos h] at hinv
        have ih := loopF_sorted fuel (pass l).1 (by omega)
        simpa [loopF, h] using ih
      · have hs := pass_sorted_of_not_swap l (by simpa using h)
        have hl : (pass l).1 = l := pass_eq_of_not_swap l (by simpa using h)
        simpa [loopF, h, hl] using hs

theorem loopF_replay {T : Type} [LinearOrder T] :
    ∀ (fuel : Nat) (l : List T),
      run_sort_steps l (loopF fuel l).2 = some (loopF fuel l).1
  | 0, l => rfl
  | fuel + 1, l => by
      by_cases h : (pass l).2.2
      · have ih := loopF_replay fuel (pass l).1
        simp only [loopF, h, if_true, run_sort_steps, runCmds_pass l]
        exact ih
      · by_cases he : (pass l).2.1.isEmpty
        · have hl : (pass l).1 = l := pass_eq_of_not_swap l (by simpa using h)
          simp [loopF, h, he, run_sort_steps, hl]
        · simp only [loopF, h, if_false, he, run_sort_steps, runCmds_pass l]
          simp [run_sort_steps]

theorem bsort_output_perm {T : Type} [LinearOrder T] (l : List T) :
    (sort l).output.Perm l :=
  loopF_perm (inversions l + 1) l

theorem bsort_output_sorted {T : Type} [LinearOrder T] (l : List T) :
    List.Sorted (· ≤ ·) (sort l).output :=
  loopF_sorted (inversions l + 1) l (Nat.lt_succ_self _)

theorem bsort_replay {T : Type} [LinearOrder T] (l : List T) :
    run_sort_steps l (sort l).steps = some (sort l).output :=
  loopF_replay (inversions l + 1) l

theorem bsort_empty {T : Type} [LinearOrder T] :
    (sort ([] : List T)).output = [] ∧ (sort ([] : List T)).steps = [] := by
  constructor <;> rfl

end bubble_sort

/-! Lemmas about the insertion-based strategy. -/

namespace insertion_sort

theorem walk_perm {T : Type} [LinearOrder T] :
    ∀ (racc : List T) (x : T) (tail : List T),
      (walk x racc tail).1.Perm (racc.reverse ++ x :: tail)
  | [], x, tail => by simp [walk]
  | a :: racc, x, tail => by
      by_cases h : a ≤ x
      · simp [walk, h]
      · have ih := walk_perm racc x (a :: tail)
        have e : (walk x (a :: racc) tail).1 = (walk x racc (a :: tail)).1 := by
          simp [walk, h]
        rw [e]
        refine ih.trans ?_
        have harr : (a :: racc).reverse ++ x :: tail
            = racc.reverse ++ a :: x :: tail := by simp
        rw [harr]
        exact List.Perm.append_left racc.reverse (List.Perm.swap a x tail)

theorem walk_sorted {T : Type} [LinearOrder T] :
    ∀ (racc : List T) (x : T) (tail : List T),
      List.Sorted (· ≤ ·) racc.reverse →
      List.Sorted (· ≤ ·) tail →
      (∀ b ∈ tail, x ≤ b) →
      (∀ a ∈ racc, ∀ b ∈ tail, a ≤ b) →
      List.Sorted (· ≤ ·) (walk x racc tail).1
  | [], x, tail, h1, h2, h3, h4 => by
      have : List.Sorted (· ≤ ·) (x :: tail) := List.sorted_cons.mpr ⟨h3, h2⟩
      simpa [walk] using this
  | a :: racc, x, tail, h1, h2, h3, h4 => by
      have h1' : List.Sorted (· ≤ ·) (racc.reverse ++ [a]) := by simpa using h1
      have hra : List.Sorted (· ≤ ·) racc.reverse :=
        (List.pairwise_append.mp h1').1
      have hcross : ∀ c ∈ racc.reverse, c ≤ a := by
        intro c hc
        exact (List.pairwise_append.mp h1').2.2 c hc a (by simp)
      by_cases h : a ≤ x
      · have hs : List.Sorted (· ≤ ·) ((a :: racc).reverse ++ x :: tail) := by
          rw [List.reverse_cons]
          apply List.pairwise_append.mpr
          refine ⟨h1', List.sorted_cons.mpr ⟨h3, h2⟩, ?_⟩
          intro c hc d hd
          have hcx : c ≤ x := by
            rcases List.mem_append.mp hc with hc1 | hc2
            · exact le_trans (hcross c hc1) h
            · simp at hc2
              subst hc2
              exact h
          rcases List.mem_cons.mp hd with rfl | hd2
          · exact hcx
          · exact le_trans hcx (h3 d hd2)
        simpa [walk, h] using hs
      · have hxa : x ≤ a := le_of_lt (lt_of_not_le h)
        have ih := walk_sorted racc x (a :: tail) hra
          (List.sorted_cons.mpr ⟨fun b hb => h4 a (by simp) b hb, h2⟩)
          (fun b hb => by
            rcases List.mem_cons.mp hb with rfl | hb2
            · exact hxa
            · exact h3 b hb2)
          (fun c hc b hb => by
            rcases List.mem_cons.mp hb with rfl | hb2
            · exact hcross c (by simpa using hc)
            · exact h4 c (by simp [hc]) b hb2)
        simpa [walk, h] using ih

theorem runCmds_walk {T : Type} [LinearOrder T] :
    ∀ (racc : List T) (x : T) (tail rest : List T),
      runCmds (racc.reverse ++ x :: (tail ++ rest)) (walk x racc tail).2
        = some ((walk x racc tail).1 ++ rest)
  | [], x, tail, rest => by simp [walk, runCmds]
  | a :: racc, x, tail, rest => by
      by_cases h : a ≤ x
      · simp [walk, h, runCmds, applyCommand]
      · have hswap := applyCommand_swap_adj racc.reverse a x (tail ++ rest)
        rw [List.length_reverse] at hswap
        have ih := runCmds_walk racc x (a :: tail) rest
        simp only [List.cons_append] at ih
        have e1 : (walk x (a :: racc) tail).2
            = SortCommand.Compare racc.length (racc.length + 1) ::
                SortCommand.Swap racc.length (racc.length + 1) ::
                  (walk x racc (a :: tail)).2 := by
          simp [walk, h]
        have e2 : (walk x (a :: racc) tail).1 = (walk x racc (a :: tail)).1 := by
          simp [walk, h]
        rw [e1, e2]
        have harr : (a :: racc).reverse ++ x :: (tail ++ rest)
            = racc.reverse ++ a :: x :: (tail ++ rest) := by simp
        rw [harr]
        have hcomp : applyCommand (racc.reverse ++ a :: x :: (tail ++ rest))
            (SortCommand.Compare racc.length (racc.length + 1))
              = some (racc.reverse ++ a :: x :: (tail ++ rest)) := rfl
        simp only [runCmds, hcomp, hswap]
        exact ih

theorem loop_perm {T : Type} [LinearOrder T] :
    ∀ (rest acc : List T), (loop acc rest).1.Perm (acc ++ rest)
  | [], acc => by simp [loop]
  | x :: rest, acc => by
      have hw : (walk x acc.reverse []).1.Perm (acc ++ [x]) := by
        simpa using walk_perm acc.reverse x []
      have ih := loop_perm rest (walk x acc.reverse []).1
      have e : (loop acc (x :: rest)).1
          = (loop (walk x acc.reverse []).1 rest).1 := by
        simp [loop]
      rw [e]
      refine ih.trans ?_
      have harr : acc ++ x :: rest = (acc ++ [x]) ++ rest := by simp
      rw [harr]
      exact hw.append_right rest

theorem loop_sorted {T : Type} [LinearOrder T] :
    ∀ (rest acc : List T), List.Sorted (· ≤ ·) acc →
      List.Sorted (· ≤ ·) (loop acc rest).1
  | [], acc, h => by simpa [loop] using h
  | x :: rest, acc, h => by
      have hw : List.Sorted (· ≤ ·) (walk x acc.reverse []).1 :=
        walk_sorted acc.reverse x [] (by simpa using h) (by simp) (by simp)
          (by simp)
      have ih := loop_sorted rest (walk x acc.reverse []).1 hw
      simpa [loop] using ih

theorem loop_replay {T : Type} [LinearOrder T] :
    ∀ (rest acc : List T),
      run_sort_steps (acc ++ rest) (loop acc rest).2 = some (loop acc rest).1
  | [], acc => by simp [loop, run_sort_steps]
  | x :: rest, acc => by
      have hw := runCmds_walk acc.reverse x [] rest
      simp only [List.reverse_reverse, List.nil_append] at hw
      have ih := loop_replay rest (walk x acc.reverse []).1
      by_cases he : (walk x acc.reverse []).2.isEmpty
      · have hw0 : (walk x acc.reverse []).2 = [] := by
          simpa [List.isEmpty_iff] using he
        rw [hw0] at hw
        have harr : acc ++ x :: rest = (walk x acc.reverse []).1 ++ rest := by
          simpa [runCmds] using hw
        simp only [loop, he, if_true]
        rw [harr]
        exact ih
      · simp only [loop, he, Bool.false_eq_true, if_false, run_sort_steps, hw]
        exact ih

theorem isort_output_perm {T : Type} [LinearOrder T] (l : List T) :
    (sort l).output.Perm l := by
  simpa using loop_perm l ([] : List T)

theorem isort_output_sorted {T : Type} [LinearOrder T] (l : List T) :
    List.Sorted (· ≤ ·) (sort l).output :=
  loop_sorted l ([] : List T) (by simp)

theorem isort_replay {T : Type} [LinearOrder T] (l : List T) :
    run_sort_steps l (sort l).steps = some (sort l).output := by
  simpa using loop_replay l ([] : List T)

theorem isort_empty {T : Type} [LinearOrder T] :
    (sort ([] : List T)).output = [] ∧ (sort ([] : List T)).steps = [] := by
  constructor <;> rfl

end insertion_sort

/-! Lemmas about the divide-and-merge strategy. -/

namespace merge_sort

theorem mergeRuns_perm {T : Type} [LinearOrder T] :
    ∀ (xs ys : List T) (li ri d : Nat),
      (mergeRuns li ri d xs ys).1.Perm (xs ++ ys)
  | [], [], li, ri, d => by simp [mergeRuns]
  | [], y :: ys, li, ri, d => by
      have ih := mergeRuns_perm [] ys li (ri + 1) (d + 1)
      simpa [mergeRuns] using ih.cons y
  | x :: xs, [], li, ri, d => by
      have ih := mergeRuns_perm xs [] (li + 1) ri (d + 1)
      simpa [mergeRuns] using ih.cons x
  | x :: xs, y :: ys, li, ri, d => by
      by_cases h : x ≤ y
      · have ih := mergeRuns_perm xs (y :: ys) (li + 1) ri (d + 1)
        simpa [mergeRuns, h] using ih.cons x
      · have ih := mergeRuns_perm (x :: xs) ys li (ri + 1) (d + 1)
        have hp : (y :: (mergeRuns li (ri + 1) (d + 1) (x :: xs) ys).1).Perm
            ((x :: xs) ++ y :: ys) :=
          (ih.cons y).trans List.perm_middle.symm
        simpa [mergeRuns, h] using hp
termination_by xs ys li ri d => xs.length + ys.length

theorem mergeRuns_sorted {T : Type} [LinearOrder T] :
    ∀ (xs ys : List T) (li ri d : Nat),
      List.Sorted (· ≤ ·) xs → List.Sorted (· ≤ ·) ys →
      List.Sorted (· ≤ ·) (mergeRuns li ri d xs ys).1
  | [], [], li, ri, d, hx, hy => by simp [mergeRuns]
  | [], y :: ys, li, ri, d, hx, hy => by
      have ih := mergeRuns_sorted [] ys li (ri + 1) (d + 1) hx hy.of_cons
      have hmem : ∀ c ∈ (mergeRuns li (ri + 1) (d + 1) ([] : List T) ys).1,
          y ≤ c := by
        intro c hc
        have hc2 : c ∈ ys := by
          simpa using (mergeRuns_perm ([] : List T) ys li (ri + 1) (d + 1)).mem_iff.mp hc
        exact List.rel_of_sorted_cons hy c hc2
      have hs : List.Sorted (· ≤ ·)
          (y :: (mergeRuns li (ri + 1) (d + 1) ([] : List T) ys).1) :=
        List.sorted_cons.mpr ⟨hmem, ih⟩
      simpa [mergeRuns] using hs
  | x :: xs, [], li, ri, d, hx, hy => by
      have ih := mergeRuns_sorted xs [] (li + 1) ri (d + 1) hx.of_cons hy
      have hmem : ∀ c ∈ (mergeRuns (li + 1) ri (d + 1) xs ([] : List T)).1,
          x ≤ c := by
        intro c hc
        have hc2 : c ∈ xs := by
          simpa using (mergeRuns_perm xs ([] : List T) (li + 1) ri (d + 1)).mem_iff.mp hc
        exact List.rel_of_sorted_cons hx c hc2
      have hs : List.Sorted (· ≤ ·)
          (x :: (mergeRuns (li + 1) ri (d + 1) xs ([] : List T)).1) :=
        List.sorted_cons.mpr ⟨hmem, ih⟩
      simpa [mergeRuns] using hs
  | x :: xs, y :: ys, li, ri, d, hx, hy => by
      by_cases h : x ≤ y
      · have ih := mergeRuns_sorted xs (y :: ys) (li + 1) ri (d + 1) hx.of_cons hy
        have hmem : ∀ c ∈ (mergeRuns (li + 1) ri (d + 1) xs (y :: ys)).1,
            x ≤ c := by
          intro c hc
          have hc2 : c ∈ xs ++ y :: ys :=
            (mergeRuns_perm xs (y :: ys) (li + 1) ri (d + 1)).mem_iff.mp hc
          rcases List.mem_append.mp hc2 with hc3 | hc3
          · exact List.rel_of_sorted_cons hx c hc3
          · rcases List.mem_cons.mp hc3 with rfl | hc4
            · exact h
            · exact le_trans h (List.rel_of_sorted_cons hy c hc4)
        have hs : List.Sorted (· ≤ ·)
            (x :: (mergeRuns (li + 1) ri (d + 1) xs (y :: ys)).1) :=
          List.sorted_cons.mpr ⟨hmem, ih⟩
        simpa [mergeRuns, h] using hs
      · have hyx : y ≤ x := le_of_lt (lt_of_not_le h)
        have ih := mergeRuns_sorted (x :: xs) ys li (ri + 1) (d + 1) hx hy.of_cons
        have hmem : ∀ c ∈ (mergeRuns li (ri + 1) (d + 1) (x :: xs) ys).1,
            y ≤ c := by
          intro c hc
          have hc2 : c ∈ (x :: xs) ++ ys :=
            (mergeRuns_perm (x :: xs) ys li (ri + 1) (d + 1)).mem_iff.mp hc
          rcases List.mem_append.mp hc2 with hc3 | hc3
          · rcases List.mem_cons.mp hc3 with rfl | hc4
            · exact hyx
            · exact le_trans hyx (List.rel_of_sorted_cons hx c hc4)
          · exact List.rel_of_sorted_cons hy c hc3
        have hs : List.Sorted (· ≤ ·)
            (y :: (mergeRuns li (ri + 1) (d + 1) (x :: xs) ys).1) :=
          List.sorted_cons.mpr ⟨hmem, ih⟩
        simpa [mergeRuns, h] using hs
termination_by xs ys li ri d hx hy => xs.length + ys.length

theorem mergeRuns_length {T : Type} [LinearOrder T]
    (xs ys : List T) (li ri d : Nat) :
    (mergeRuns li ri d xs ys).1.length = xs.length + ys.length := by
  have h := (mergeRuns_perm xs ys li ri d).length_eq
  simpa using h

theorem runCmds_mergeRuns {T : Type} [LinearOrder T] :
    ∀ (xs ys : List T) (li ri : Nat) (P old S : List T),
      old.length = xs.length + ys.length →
      runCmds (P ++ (old ++ S)) (mergeRuns li ri P.length xs ys).2
        = some (P ++ ((mergeRuns li ri P.length xs ys).1 ++ S))
  | [], [], li, ri, P, old, S, hlen => by
      have ho : old = [] := List.length_eq_zero.mp (by simpa using hlen)
      subst ho
      simp [mergeRuns, runCmds]
  | [], y :: ys, li, ri, P, old, S, hlen => by
      cases old with
      | nil => simp at hlen
      | cons o old =>
          have hlen2 : old.length = ([] : List T).length + ys.length := by
            simp at hlen ⊢
            omega
          have ih := runCmds_mergeRuns [] ys li (ri + 1) (P ++ [y]) old S hlen2
          simp only [List.length_append, List.length_cons, List.length_nil,
            Nat.zero_add, List.append_assoc, List.singleton_append] at ih
          have e1 : (mergeRuns li ri P.length ([] : List T) (y :: ys)).2
              = SortCommand.Write P.length y ::
                  (mergeRuns li (ri + 1) (P.length + 1) ([] : List T) ys).2 := by
            simp [mergeRuns]
          have e2 : (mergeRuns li ri P.length ([] : List T) (y :: ys)).1
              = y :: (mergeRuns li (ri + 1) (P.length + 1) ([] : List T) ys).1 := by
            simp [mergeRuns]
          rw [e1, e2]
          have hwr := applyCommand_write_len P o y (old ++ S)
          simp only [List.cons_append, runCmds, hwr]
          simpa using ih
  | x :: xs, [], li, ri, P, old, S, hlen => by
      cases old with
      | nil => simp at hlen
      | cons o old =>
          have hlen2 : old.length = xs.length + ([] : List T).length := by
            simp at hlen ⊢
            omega
          have ih := runCmds_mergeRuns xs [] (li + 1) ri (P ++ [x]) old S hlen2
          simp only [List.length_append, List.length_cons, List.length_nil,
            Nat.zero_add, List.append_assoc, List.singleton_append] at ih
          have e1 : (mergeRuns li ri P.length (x :: xs) ([] : List T)).2
              = SortCommand.Write P.length x ::
                  (mergeRuns (li + 1) ri (P.length + 1) xs ([] : List T)).2 := by
            simp [mergeRuns]
          have e2 : (mergeRuns li ri P.length (x :: xs) ([] : List T)).1
              = x :: (mergeRuns (li + 1) ri (P.length + 1) xs ([] : List T)).1 := by
            simp [mergeRuns]
          rw [e1, e2]
          have hwr := applyCommand_write_len P o x (old ++ S)
          simp only [List.cons_append, runCmds, hwr]
          simpa using ih
  | x :: xs, y :: ys, li, ri, P, old, S, hlen => by
      cases old with
      | nil =>
          simp at hlen
          omega
      | cons o old =>
          by_cases h : x ≤ y
          · have hlen2 : old.length = xs.length + (y :: ys).length := by
              simp at hlen ⊢
              omega
            have ih := runCmds_mergeRuns xs (y :: ys) (li + 1) ri (P ++ [x]) old S hlen2
            simp only [List.length_append, List.length_cons, List.length_nil,
              Nat.zero_add, List.append_assoc, List.singleton_append] at ih
            have e1 : (mergeRuns li ri P.length (x :: xs) (y :: ys)).2
                = SortCommand.Compare li ri :: SortCommand.Write P.length x ::
                    (mergeRuns (li + 1) ri (P.length + 1) xs (y :: ys)).2 := by
              simp [mergeRuns, h]
            have e2 : (mergeRuns li ri P.length (x :: xs) (y :: ys)).1
                = x :: (mergeRuns (li + 1) ri (P.length + 1) xs (y :: ys)).1 := by
              simp [mergeRuns, h]
            rw [e1, e2]
            have hcomp : applyCommand (P ++ o :: (old ++ S))
                (SortCommand.Compare li ri) = some (P ++ o :: (old ++ S)) := rfl
            have hwr := applyCommand_write_len P o x (old ++ S)
            simp only [List.cons_append, runCmds, hcomp, hwr]
            simpa using ih
          · have hlen2 : old.length = (x :: xs).length + ys.length := by
              simp at hlen ⊢
              omega
            have ih := runCmds_mergeRuns (x :: xs) ys li (ri + 1) (P ++ [y]) old S hlen2
            simp only [List.length_append, List.length_cons, List.length_nil,
              Nat.zero_add, List.append_assoc, List.singleton_append] at ih
            have e1 : (mergeRuns li ri P.length (x :: xs) (y :: ys)).2
                = SortCommand.Compare li ri :: SortCommand.Write P.length y ::
                    (mergeRuns li (ri + 1) (P.length + 1) (x :: xs) ys).2 := by
              simp [mergeRuns, h]
            have e2 : (mergeRuns li ri P.length (x :: xs) (y :: ys)).1
                = y :: (mergeRuns li (ri + 1) (P.length + 1) (x :: xs) ys).1 := by
              simp [mergeRuns, h]
            rw [e1, e2]
            have hcomp : applyCommand (P ++ o :: (old ++ S))
                (SortCommand.Compare li ri) = some (P ++ o :: (old ++ S)) := rfl
            have hwr := applyCommand_write_len P o y (old ++ S)
            simp only [List.cons_append, runCmds, hcomp, hwr]
            simpa using ih
termination_by xs ys li ri P old S hlen => xs.length + ys.length

theorem run_sort_steps_append_some {T : Type}
    (s t : List (List (SortCommand T))) (A B : List T)
    (h : run_sort_steps A s = some B) :
    run_sort_steps A (s ++ t) = run_sort_steps B t := by
  rw [run_sort_steps_append s t A, h]

theorem msortSeg_perm {T : Type} [LinearOrder T] (off : Nat) (l : List T) :
    (msortSeg off l).1.Perm l := by
  by_cases h : l.length ≤ 1
  · rw [msortSeg.eq_def]
    simp [h]
  · have ihL := msortSeg_perm off (l.take (l.length / 2))
    have ihR := msortSeg_perm (off + l.length / 2) (l.drop (l.length / 2))
    have hm := mergeRuns_perm (msortSeg off (l.take (l.length / 2))).1
      (msortSeg (off + l.length / 2) (l.drop (l.length / 2))).1
      off (off + l.length / 2) off
    have e1 : (msortSeg off l).1
        = (mergeRuns off (off + l.length / 2) off
            (msortSeg off (l.take (l.length / 2))).1
            (msortSeg (off + l.length / 2) (l.drop (l.length / 2))).1).1 := by
      rw [msortSeg.eq_def]
      simp [h]
    rw [e1]
    refine hm.trans ((ihL.append ihR).trans ?_)
    rw [List.take_append_drop]
termination_by l.length
decreasing_by
  · simp [List.length_take]
    omega
  · simp [List.length_drop]
    omega

theorem msortSeg_length {T : Type} [LinearOrder T] (off : Nat) (l : List T) :
    (msortSeg off l).1.length = l.length :=
  (msortSeg_perm off l).length_eq

theorem msortSeg_sorted {T : Type} [LinearOrder T] (off : Nat) (l : List T) :
    List.Sorted (· ≤ ·) (msortSeg off l).1 := by
  by_cases h : l.length ≤ 1
  · have e : (msortSeg off l).1 = l := by
      rw [msortSeg.eq_def]
      simp [h]
    rw [e]
    cases l with
    | nil => simp
    | cons a t =>
        cases t with
        | nil => simp
        | cons b t2 => simp at h
  · have ihL := msortSeg_sorted off (l.take (l.length / 2))
    have ihR := msortSeg_sorted (off + l.length / 2) (l.drop (l.length / 2))
    have e1 : (msortSeg off l).1
        = (mergeRuns off (off + l.length / 2) off
            (msortSeg off (l.take (l.length / 2))).1
            (msortSeg (off + l.length / 2) (l.drop (l.length / 2))).1).1 := by
      rw [msortSeg.eq_def]
      simp [h]
    rw [e1]
    exact mergeRuns_sorted _ _ _ _ _ ihL ihR
termination_by l.length
decreasing_by
  · simp [List.length_take]
    omega
  · simp [List.length_drop]
    omega

theorem msortSeg_replay {T : Type} [LinearOrder T] (l P S : List T) :
    run_sort_steps (P ++ (l ++ S)) (msortSeg P.length l).2
      = some (P ++ ((msortSeg P.length l).1 ++ S)) := by
  by_cases h : l.length ≤ 1
  · have e1 : (msortSeg P.length l).1 = l := by
      rw [msortSeg.eq_def]
      simp [h]
    have e2 : (msortSeg P.length l).2 = [] := by
      rw [msortSeg.eq_def]
      simp [h]
    rw [e1, e2]
    rfl
  · have htake : (l.take (l.length / 2)).length = l.length / 2 := by
      simp [List.length_take]
      omega
    have ihL := msortSeg_replay (l.take (l.length / 2)) P
      (l.drop (l.length / 2) ++ S)
    have ihR := msortSeg_replay (l.drop (l.length / 2))
      (P ++ (msortSeg P.length (l.take (l.length / 2))).1) S
    have hL1len : (msortSeg P.length (l.take (l.length / 2))).1.length
        = l.length / 2 := by
      rw [msortSeg_length]
      exact htake
    have hofflen : (P ++ (msortSeg P.length (l.take (l.length / 2))).1).length
        = P.length + l.length / 2 := by
      simp [hL1len]
    rw [hofflen] at ihR
    have hmer := runCmds_mergeRuns
      (msortSeg P.length (l.take (l.length / 2))).1
      (msortSeg (P.length + l.length / 2) (l.drop (l.length / 2))).1
      P.length (P.length + l.length / 2) P
      ((msortSeg P.length (l.take (l.length / 2))).1
        ++ (msortSeg (P.length + l.length / 2) (l.drop (l.length / 2))).1) S
      (by simp)
    have e1 : (msortSeg P.length l).1
        = (mergeRuns P.length (P.length + l.length / 2) P.length
            (msortSeg P.length (l.take (l.length / 2))).1
            (msortSeg (P.length + l.length / 2) (l.drop (l.length / 2))).1).1 := by
      rw [msortSeg.eq_def]
      simp [h]
    have e2 : (msortSeg P.length l).2
        = ((msortSeg P.length (l.take (l.length / 2))).2
            ++ (msortSeg (P.length + l.length / 2) (l.drop (l.length / 2))).2)
          ++ [(mergeRuns P.length (P.length + l.length / 2) P.length
              (msortSeg P.length (l.take (l.length / 2))).1
              (msortSeg (P.length + l.length / 2) (l.drop (l.length / 2))).1).2] := by
      rw [msortSeg.eq_def]
      simp [h]
    rw [e1, e2]
    have harr : P ++ (l ++ S)
        = P ++ (l.take (l.length / 2) ++ (l.drop (l.length / 2) ++ S)) := by
      rw [← List.append_assoc (l.take (l.length / 2)), List.take_append_drop]
    rw [harr]
    have step1 := run_sort_steps_append_some
      (msortSeg P.length (l.take (l.length / 2))).2
      (msortSeg (P.length + l.length / 2) (l.drop (l.length / 2))).2
      (P ++ (l.take (l.length / 2) ++ (l.drop (l.length / 2) ++ S)))
      (P ++ ((msortSeg P.length (l.take (l.length / 2))).1
        ++ (l.drop (l.length / 2) ++ S))) ihL
    have ihR2 : run_sort_steps
        (P ++ ((msortSeg P.length (l.take (l.length / 2))).1
          ++ (l.drop (l.length / 2) ++ S)))
        (msortSeg (P.length + l.length / 2) (l.drop (l.length / 2))).2
        = some (P ++ ((msortSeg P.length (l.take (l.length / 2))).1
            ++ ((msortSeg (P.length + l.length / 2) (l.drop (l.length / 2))).1
              ++ S))) := by
      simpa [List.append_assoc] using ihR
    have step2 := run_sort_steps_append_some
      ((msortSeg P.length (l.take (l.length / 2))).2
        ++ (msortSeg (P.length + l.length / 2) (l.drop (l.length / 2))).2)
      [(mergeRuns P.length (P.length + l.length / 2) P.length
          (msortSeg P.length (l.take (l.length / 2))).1
          (msortSeg (P.length + l.length / 2) (l.drop (l.length / 2))).1).2]
      (P ++ (l.take (l.length / 2) ++ (l.drop (l.length / 2) ++ S)))
      (P ++ ((msortSeg P.length (l.take (l.length / 2))).1
        ++ ((msortSeg (P.length + l.length / 2) (l.drop (l.length / 2))).1
          ++ S)))
      (by
        rw [run_sort_steps_append_some _ _ _ _ ihL]
        exact ihR2)
    rw [step2]
    have hmer2 : runCmds
        (P ++ ((msortSeg P.length (l.take (l.length / 2))).1
          ++ ((msortSeg (P.length + l.length / 2) (l.drop (l.length / 2))).1
            ++ S)))
        (mergeRuns P.length (P.length + l.length / 2) P.length
          (msortSeg P.length (l.take (l.length / 2))).1
          (msortSeg (P.length + l.length / 2) (l.drop (l.length / 2))).1).2
        = some (P ++ ((mergeRuns P.length (P.length + l.length / 2) P.length
            (msortSeg P.length (l.take (l.length / 2))).1
            (msortSeg (P.length + l.length / 2) (l.drop (l.length / 2))).1).1
              ++ S)) := by
      simpa [List.append_assoc] using hmer
    simp [run_sort_steps, hmer2]
termination_by l.length
decreasing_by
  · simp [List.length_take]
    omega
  · simp [List.length_drop]
    omega

theorem msort_output_perm {T : Type} [LinearOrder T] (l : List T) :
    (sort l).output.Perm l :=
  msortSeg_perm 0 l

theorem msort_output_sorted {T : Type} [LinearOrder T] (l : List T) :
    List.Sorted (· ≤ ·) (sort l).output :=
  msortSeg_sorted 0 l

theorem msort_replay {T : Type} [LinearOrder T] (l : List T) :
    run_sort_steps l (sort l).steps = some (sort l).output := by
  have h := msortSeg_replay l ([] : List T) ([] : List T)
  simpa [sort, SortResult.new] using h

theorem msort_empty {T : Type} [LinearOrder T] :
    (sort ([] : List T)).output = [] ∧ (sort ([] : List T)).steps = [] := by
  constructor
  · have e : (msortSeg 0 ([] : List T)).1 = [] := by
      rw [msortSeg.eq_def]
      simp
    simpa [sort, SortResult.new] using e
  · have e : (msortSeg 0 ([] : List T)).2 = [] := by
      rw [msortSeg.eq_def]
      simp
    simpa [sort, SortResult.new] using e

end merge_sort

/-! Helper lemmas about the algorithm registry and the component. -/

theorem mem_sorting_algorithms {T : Type} [LinearOrder T]
    (a : SortingAlgorithm T) (ha : a ∈ SORTING_ALGORITHMS T) :
    a.sort = bubble_sort.sort ∨ a.sort = insertion_sort.sort
      ∨ a.sort = merge_sort.sort := by
  simp only [SORTING_ALGORITHMS, List.mem_cons, List.mem_singleton] at ha
  rcases ha with rfl | rfl | rfl | h
  · exact Or.inl rfl
  · exact Or.inr (Or.inl rfl)
  · exact Or.inr (Or.inr rfl)
  · simp at h

theorem update_values_cursor (s : SortingAlgorithms) (fresh : List Nat)
    (h : (s.update_values fresh).steps ≠ []) :
    (s.update_values fresh).active_step_index
      < (s.update_values fresh).steps.length := by
  have hlen : 0 < (s.update_values fresh).steps.length :=
    List.length_pos.mpr h
  unfold SortingAlgorithms.update_values at *
  by_cases hc : s.active_step_index
      ≥ (s.sort_config.sorting_algorithm.sort fresh).steps.length
  · rw [if_pos hc] at hlen ⊢
    show usizeSub1 (s.sort_config.sorting_algorithm.sort fresh).steps.length
        < (s.sort_config.sorting_algorithm.sort fresh).steps.length
    have hlen2 : 0 < (s.sort_config.sorting_algorithm.sort fresh).steps.length :=
      hlen
    unfold usizeSub1
    rw [if_neg (by omega)]
    omega
  · rw [if_neg hc] at hlen ⊢
    show s.active_step_index
        < (s.sort_config.sorting_algorithm.sort fresh).steps.length
    omega

/-! Claim theorems. -/

/-- C1: for every algorithm in scope and every finite input sequence,
replaying the full step log against the original input (applying every
command of every step in order, with Compare inert) yields exactly the
recorded output, element-for-element. -/
theorem claim_C1 {T : Type} [LinearOrder T] (a : SortingAlgorithm T)
    (ha : a ∈ SORTING_ALGORITHMS T) (input : List T) :
    replay input (a.sort input).steps (a.sort input).steps.length
      = some (a.sort input).output := by
  rw [replay, List.take_length]
  rcases mem_sorting_algorithms a ha with h | h | h
  · rw [h]
    exact bubble_sort.bsort_replay input
  · rw [h]
    exact insertion_sort.isort_replay input
  · rw [h]
    exact merge_sort.msort_replay input

/-- Witness for C1 at the exchange-based strategy on input [5, 3, 8, 1]. -/
theorem claim_C1_witness :
    (({ name := "Bubble sort", sort := bubble_sort.sort } : SortingAlgorithm Nat)
        ∈ SORTING_ALGORITHMS Nat)
    ∧ replay [5, 3, 8, 1]
        (SortingAlgorithm.sort
          ({ name := "Bubble sort", sort := bubble_sort.sort } : SortingAlgorithm Nat) [5, 3, 8, 1]).steps
        (SortingAlgorithm.sort
          ({ name := "Bubble sort", sort := bubble_sort.sort } : SortingAlgorithm Nat) [5, 3, 8, 1]).steps.length
      = some (SortingAlgorithm.sort
          ({ name := "Bubble sort", sort := bubble_sort.sort } : SortingAlgorithm Nat) [5, 3, 8, 1]).output :=
  ⟨List.Mem.head _, claim_C1 _ (List.Mem.head _) [5, 3, 8, 1]⟩

/-- C2: for every algorithm in scope and every finite input sequence, the
returned output is non-descending under the ordering of the element type
and is a permutation (same multiset of values) of the input. -/
theorem claim_C2 {T : Type} [LinearOrder T] (a : SortingAlgorithm T)
    (ha : a ∈ SORTING_ALGORITHMS T) (input : List T) :
    List.Sorted (· ≤ ·) (a.sort input).output
      ∧ (a.sort input).output.Perm input := by
  rcases mem_sorting_algorithms a ha with h | h | h
  · rw [h]
    exact ⟨bubble_sort.bsort_output_sorted input, bubble_sort.bsort_output_perm input⟩
  · rw [h]
    exact ⟨insertion_sort.isort_output_sorted input,
      insertion_sort.isort_output_perm input⟩
  · rw [h]
    exact ⟨merge_sort.msort_output_sorted input, merge_sort.msort_output_perm input⟩

/-- Witness for C2 at the insertion-based strategy on input [5, 3, 8, 1]. -/
theorem claim_C2_witness :
    (({ name := "Insertion sort", sort := insertion_sort.sort } : SortingAlgorithm Nat)
        ∈ SORTING_ALGORITHMS Nat)
    ∧ (List.Sorted (· ≤ ·)
        (SortingAlgorithm.sort
          ({ name := "Insertion sort", sort := insertion_sort.sort } : SortingAlgorithm Nat) [5, 3, 8, 1]).output
      ∧ (SortingAlgorithm.sort
          ({ name := "Insertion sort", sort := insertion_sort.sort } : SortingAlgorithm Nat) [5, 3, 8, 1]).output.Perm
            [5, 3, 8, 1]) :=
  ⟨List.Mem.tail _ (List.Mem.head _),
    claim_C2 _ (List.Mem.tail _ (List.Mem.head _)) [5, 3, 8, 1]⟩

/-- C3: for every input sequence and every step log, replaying a prefix of
length zero returns the input unchanged. -/
theorem claim_C3 {T : Type} (input : List T)
    (steps : List (List (SortCommand T))) :
    replay input steps 0 = some input := rfl

/-- C4: for the empty input sequence, every algorithm in scope returns an
empty output and an empty step log. -/
theorem claim_C4 {T : Type} [LinearOrder T] (a : SortingAlgorithm T)
    (ha : a ∈ SORTING_ALGORITHMS T) :
    (a.sort []).output = [] ∧ (a.sort []).steps = [] := by
  rcases mem_sorting_algorithms a ha with h | h | h
  · rw [h]
    exact bubble_sort.bsort_empty
  · rw [h]
    exact insertion_sort.isort_empty
  · rw [h]
    exact merge_sort.msort_empty

/-- Witness for C4 at the divide-and-merge strategy. -/
theorem claim_C4_witness :
    (({ name := "Merge sort", sort := merge_sort.sort } : SortingAlgorithm Nat)
        ∈ SORTING_ALGORITHMS Nat)
    ∧ ((SortingAlgorithm.sort
          ({ name := "Merge sort", sort := merge_sort.sort } : SortingAlgorithm Nat) []).output = []
      ∧ (SortingAlgorithm.sort
          ({ name := "Merge sort", sort := merge_sort.sort } : SortingAlgorithm Nat) []).steps = []) :=
  ⟨List.Mem.tail _ (List.Mem.tail _ (List.Mem.head _)),
    claim_C4 _ (List.Mem.tail _ (List.Mem.tail _ (List.Mem.head _)))⟩

/-- C5: invoking the same algorithm twice on identical input produces
identical output sequences and identical step logs; the recorded duration
is whatever the injected clock measured on each run, so it may differ. -/
theorem claim_C5 {T : Type} [LinearOrder T] (a : SortingAlgorithm T)
    (ha : a ∈ SORTING_ALGORITHMS T) (input : List T) (d1 d2 : Option Nat) :
    (run a input d1).output = (run a input d2).output
      ∧ (run a input d1).steps = (run a input d2).steps
      ∧ (run a input d1).duration = d1
      ∧ (run a input d2).duration = d2 :=
  ⟨rfl, rfl, rfl, rfl⟩

/-- Witness for C5 at the exchange-based strategy with two different
measured durations. -/
theorem claim_C5_witness :
    (({ name := "Bubble sort", sort := bubble_sort.sort } : SortingAlgorithm Nat)
        ∈ SORTING_ALGORITHMS Nat)
    ∧ ((run ({ name := "Bubble sort", sort := bubble_sort.sort } : SortingAlgorithm Nat) [3, 1, 2] (some 7)).output
          = (run ({ name := "Bubble sort", sort := bubble_sort.sort } : SortingAlgorithm Nat) [3, 1, 2] (some 9)).output
      ∧ (run ({ name := "Bubble sort", sort := bubble_sort.sort } : SortingAlgorithm Nat) [3, 1, 2] (some 7)).steps
          = (run ({ name := "Bubble sort", sort := bubble_sort.sort } : SortingAlgorithm Nat) [3, 1, 2] (some 9)).steps
      ∧ (run ({ name := "Bubble sort", sort := bubble_sort.sort } : SortingAlgorithm Nat) [3, 1, 2] (some 7)).duration
          = some 7
      ∧ (run ({ name := "Bubble sort", sort := bubble_sort.sort } : SortingAlgorithm Nat) [3, 1, 2] (some 9)).duration
          = some 9) :=
  ⟨List.Mem.head _,
    claim_C5 _ (List.Mem.head _) [3, 1, 2] (some 7) (some 9)⟩

/-- C7: the selectable algorithm list is a fixed, closed set of exactly
three entries, identified by the stable name strings Bubble sort,
Insertion sort and Merge sort, each exposing the sort function of the
corresponding strategy. -/
theorem claim_C7 {T : Type} [LinearOrder T] :
    (SORTING_ALGORITHMS T).length = 3
    ∧ (SORTING_ALGORITHMS T).map SortingAlgorithm.name
        = ["Bubble sort", "Insertion sort", "Merge sort"]
    ∧ (SORTING_ALGORITHMS T).map SortingAlgorithm.sort
        = [bubble_sort.sort, insertion_sort.sort, merge_sort.sort] :=
  ⟨rfl, rfl, rfl⟩

/-- C6 counterexample: a ChangeActiveStep message whose successfully parsed
value exceeds the step count leaves the cursor at that value, which is not
strictly less than the length of the step log; the handler performs no
clamping on this path. -/
theorem claim_C6_counterexample :
    ¬ ((sampleCursorState.update (Msg.ChangeActiveStep (Except.ok 5)) []).1.active_step_index
        < (sampleCursorState.update
            (Msg.ChangeActiveStep (Except.ok 5)) []).1.steps.length) := by
  decide

/-- C6 amended: UpdateInput and UpdateConfig with the rerender flag set
clamp the cursor, leaving it strictly below the length of the new step log
whenever that log is nonempty; ChangeActiveStep with a successfully parsed
value, however, stores the value unclamped. -/
theorem claim_C6_amended :
    (∀ (s : SortingAlgorithms) (val fresh : List Nat),
        (s.update (Msg.UpdateInput val) fresh).1.steps ≠ [] →
        (s.update (Msg.UpdateInput val) fresh).1.active_step_index
          < (s.update (Msg.UpdateInput val) fresh).1.steps.length)
    ∧ (∀ (s : SortingAlgorithms) (cfg : SortConfig) (fresh : List Nat),
        (s.update (Msg.UpdateConfig cfg true) fresh).1.steps ≠ [] →
        (s.update (Msg.UpdateConfig cfg true) fresh).1.active_step_index
          < (s.update (Msg.UpdateConfig cfg true) fresh).1.steps.length)
    ∧ (∀ (s : SortingAlgorithms) (v : Nat) (fresh : List Nat),
        (s.update (Msg.ChangeActiveStep (Except.ok v)) fresh).1.active_step_index
          = v) := by
  refine ⟨?_, ?_, ?_⟩
  · intro s val fresh h
    exact update_values_cursor { s with input := val } fresh h
  · intro s cfg fresh h
    exact update_values_cursor { s with sort_config := cfg } fresh h
  · intro s v fresh
    rfl

/-- Witness for the amended C6 on the regeneration path: with the
insertion-based strategy and fresh input [2, 1] the new step log is
nonempty and the cursor ends in range. -/
theorem claim_C6_amended_witness :
    ((sampleInsertState.update (Msg.UpdateInput [9, 9]) [2, 1]).1.steps ≠ [])
    ∧ (sampleInsertState.update (Msg.UpdateInput [9, 9]) [2, 1]).1.active_step_index
        < (sampleInsertState.update (Msg.UpdateInput [9, 9]) [2, 1]).1.steps.length :=
  ⟨by decide, claim_C6_amended.1 sampleInsertState [9, 9] [2, 1] (by decide)⟩

/-- C8: the view computation never mutates the stored input: the displayed
output is the result of replaying the selected step prefix on a copy of the
stored input, and the displayed input values are the stored input itself,
unchanged. -/
theorem claim_C8 (s : SortingAlgorithms) (inp out : List Nat)
    (h : s.view = some (inp, out)) :
    inp = s.input
      ∧ run_sort_steps s.input (s.steps.take (s.active_step_index + 1))
          = some out := by
  unfold SortingAlgorithms.view at h
  by_cases hr : s.active_step_index < s.steps.length
  · rw [if_pos hr] at h
    cases hrun : run_sort_steps s.input (s.steps.take (s.active_step_index + 1)) with
    | some o =>
        rw [hrun] at h
        simp only [Option.some.injEq, Prod.mk.injEq] at h
        exact ⟨h.1.symm, congrArg some h.2⟩
    | none =>
        rw [hrun] at h
        simp at h
  · rw [if_neg hr] at h
    simp at h

/-- Witness for C8 on a concrete state: input [2, 1] with a one-step log
whose replay swaps the two positions. -/
theorem claim_C8_witness :
    sampleViewState.view = some ([2, 1], [1, 2])
    ∧ ([2, 1] = sampleViewState.input
      ∧ run_sort_steps sampleViewState.input
          (sampleViewState.steps.take (sampleViewState.active_step_index + 1))
            = some [1, 2]) :=
  ⟨by decide, claim_C8 sampleViewState [2, 1] [1, 2] (by decide)⟩

/-- C9: a ChangeActiveStep message carrying a parse error leaves the whole
component state unchanged and reports that no rerender is needed. -/
theorem claim_C9 (s : SortingAlgorithms) (e : ParseIntError)
    (fresh : List Nat) :
    s.update (Msg.ChangeActiveStep (Except.error e)) fresh = (s, false) := rfl

/-- C10: an UpdateConfig message with the rerender flag false replaces the
configuration but leaves input, output, step log and cursor unchanged,
returns false, and runs no new sort. -/
theorem claim_C10 (s : SortingAlgorithms) (cfg : SortConfig)
    (fresh : List Nat) :
    (s.update (Msg.UpdateConfig cfg false) fresh).1.input = s.input
    ∧ (s.update (Msg.UpdateConfig cfg false) fresh).1.output = s.output
    ∧ (s.update (Msg.UpdateConfig cfg false) fresh).1.steps = s.steps
    ∧ (s.update (Msg.UpdateConfig cfg false) fresh).1.active_step_index
        = s.active_step_index
    ∧ (s.update (Msg.UpdateConfig cfg false) fresh).1.sort_config = cfg
    ∧ (s.update (Msg.UpdateConfig cfg false) fresh).2 = false :=
  ⟨rfl, rfl, rfl, rfl, rfl, rfl⟩
